import Mathlib

/-!
Verification of the `rustpy` tokenizer
(`src/rustpy_compiler/src/tokenizer.rs`).

The tokenizer works over a UTF-8 source string.  We embed the source as a
`List Char` of Unicode scalar values and keep all cursor arithmetic in
*bytes*, exactly as the Rust code does (`self.position` is a byte offset,
`token.value.len()` is a byte length, `&str[a..b]` panics when an index is
not on a character boundary).  Rust panics — both the explicit `panic!`
calls and the implicit slicing panics — are modelled as explicit
`panic`/`Except.error` outcomes so that theorems can talk about them.
-/

namespace RustPy

/-! ## Character model

The Rust code calls two external crates: `unicode-xid`
(`UnicodeXID::is_xid_start` / `is_xid_continue`) and
`unicode-normalization` (`str::nfkc`).  These are modelled here on the
character repertoire exercised in this development: ASCII, plus U+00AA
(FEMININE ORDINAL INDICATOR `ª`), which is in `XID_Start` and whose NFKC
normalization is the single letter `a`.  On this repertoire the
definitions below agree with the Unicode 11 data the crates implement. -/

/-- The form-feed character, Rust `'\x0c'`. -/
def formFeed : Char := Char.ofNat 12

/-- Modelled from the `unicode-xid` crate: `XID_Start`, restricted to
ASCII letters plus U+00AA `ª`.  (`_` is *not* `XID_Start`.) -/
def isXidStart (c : Char) : Bool :=
  c.isAlpha || c == 'ª'

/-- Modelled from the `unicode-xid` crate: `XID_Continue`, restricted to
the same repertoire (`XID_Start` plus ASCII digits and `_`). -/
def isXidContinue (c : Char) : Bool :=
  isXidStart c || c.isDigit || c == '_'

/-- Modelled from the `unicode-normalization` crate: the NFKC
normalization of one character, on the repertoire above (`ª` ↦ `a`,
everything else is NFKC-invariant). -/
def nfkcChar (c : Char) : List Char :=
  if c == 'ª' then ['a'] else [c]

/-- Modelled from the `unicode-normalization` crate: `value.nfkc().collect()`. -/
def nfkc (s : List Char) : List Char :=
  (s.map nfkcChar).flatten

/-! ## Byte-level utilities

Rust strings are indexed by bytes; we recover byte arithmetic from the
character list via `Char.utf8Size`. -/

/-- Byte length of a string, Rust `str::len`. -/
def utf8Len (s : List Char) : Nat :=
  (s.map Char.utf8Size).sum

/-- Drop the first `n` bytes of a string, Rust `&s[n..]`.  Returns `none`
when `n` is past the end or not on a character boundary (Rust panics). -/
def dropBytes : List Char → Nat → Option (List Char)
  | s, 0 => some s
  | [], _ + 1 => none
  | c :: rest, n + 1 =>
    if c.utf8Size ≤ n + 1 then dropBytes rest (n + 1 - c.utf8Size) else none

/-- Take the first `n` bytes of a string, Rust `&s[0..n]`.  Returns `none`
when `n` is past the end or not on a character boundary (Rust panics). -/
def takeBytes : List Char → Nat → Option (List Char)
  | _, 0 => some []
  | [], _ + 1 => none
  | c :: rest, n + 1 =>
    if c.utf8Size ≤ n + 1 then
      (takeBytes rest (n + 1 - c.utf8Size)).map (fun l => c :: l)
    else none

/-! ## Data model (`tokenizer.rs`, `tokenizer/token.rs`) -/

/-- `TokenType` from `src/rustpy_compiler/src/tokenizer/token.rs`. -/
inductive TokenType
  | Ampersand | AmpersandEqual | At | AtEqual | Circumflex | CircumflexEqual
  | Colon | Comma | Comment | Dedent | Dot | DoubleEqual | DoubleSlash
  | DoubleSlashEqual | DoubleStar | DoubleStarEqual | Ellipsis | Encoding
  | EndMarker | Equal | ErrorToken | Greater | GreaterEqual | Indent
  | LeftSquareBracket | LeftBrace | LeftParenthesis | LeftShift
  | LeftShiftEqual | Less | LessEqual | MinusEqual | Minus | Name
  | NewlineContinuation | NewlineLogical | NotEqual | Number | Operator
  | Percent | PercentEqual | Plus | PlusEqual | RightArrow | RightBrace
  | RightParenthesis | RightSquareBracket | RightShift | RightShiftEqual
  | Semicolon | Slash | SlashEqual | Star | StarEqual | String | Tilde
  | VerticalBar | VerticalBarEqual
  deriving DecidableEq, Repr

/-- `Token`: a token type together with its text (`value: String`). -/
structure Token where
  token_type : TokenType
  value : List Char
  deriving DecidableEq, Repr

/-- `const TAB_SIZE: u32 = 8`. -/
def TAB_SIZE : Nat := 8

/-- `const SIMPLE_TOKENS: [(&str, TokenType); 48]`, in source order. -/
def SIMPLE_TOKENS : List (List Char × TokenType) :=
  [ ("\\\r\n".data, TokenType.NewlineContinuation),
    ("\\\n".data, TokenType.NewlineContinuation),
    (">>=".data, TokenType.RightShiftEqual),
    ("<<=".data, TokenType.LeftShiftEqual),
    ("//=".data, TokenType.DoubleSlashEqual),
    ("**=".data, TokenType.DoubleStarEqual),
    ("...".data, TokenType.Ellipsis),
    ("!=".data, TokenType.NotEqual),
    ("&=".data, TokenType.AmpersandEqual),
    ("@=".data, TokenType.AtEqual),
    ("^=".data, TokenType.CircumflexEqual),
    ("%=".data, TokenType.PercentEqual),
    ("+=".data, TokenType.PlusEqual),
    ("|=".data, TokenType.VerticalBarEqual),
    ("==".data, TokenType.DoubleEqual),
    ("-=".data, TokenType.MinusEqual),
    ("->".data, TokenType.RightArrow),
    (">>".data, TokenType.RightShift),
    (">=".data, TokenType.GreaterEqual),
    ("<<".data, TokenType.LeftShift),
    ("<=".data, TokenType.LessEqual),
    ("//".data, TokenType.DoubleSlash),
    ("/=".data, TokenType.SlashEqual),
    ("**".data, TokenType.DoubleStar),
    ("*=".data, TokenType.StarEqual),
    (":".data, TokenType.Colon),
    (",".data, TokenType.Comma),
    (";".data, TokenType.Semicolon),
    ("~".data, TokenType.Tilde),
    ("&".data, TokenType.Ampersand),
    ("@".data, TokenType.At),
    ("^".data, TokenType.Circumflex),
    ("%".data, TokenType.Percent),
    ("+".data, TokenType.Plus),
    ("|".data, TokenType.VerticalBar),
    ("=".data, TokenType.Equal),
    ("-".data, TokenType.Minus),
    (">".data, TokenType.Greater),
    ("<".data, TokenType.Less),
    ("/".data, TokenType.Slash),
    ("*".data, TokenType.Star),
    (".".data, TokenType.Dot),
    ("(".data, TokenType.LeftParenthesis),
    ("[".data, TokenType.LeftSquareBracket),
    ("\x7b".data, TokenType.LeftBrace),
    (")".data, TokenType.RightParenthesis),
    ("]".data, TokenType.RightSquareBracket),
    ("\x7d".data, TokenType.RightBrace) ]

/-- `struct Tokenizer`: the tokenizer's owned state.  `source` never
changes; `position` is a byte offset into it. -/
structure Tokenizer where
  source : List Char
  position : Nat
  parentheses_level : Int
  previous_token_type : Option TokenType
  indentation_stack : List (List Char)
  token_buffer : List Token
  deriving DecidableEq, Repr

/-- `Tokenizer::new`. -/
def Tokenizer.new (source : List Char) : Tokenizer :=
  ⟨source, 0, 0, none, [], []⟩

/-! ## Panic messages

Rust `panic!` calls and implicit `&str` slicing panics, as explicit
values so that theorems can distinguish outcomes. -/

/-- Message of the implicit panic raised by `&str[a..]`/`&str[a..b]` on a
non-boundary index. -/
def boundary_msg : String := "byte index is not a char boundary"

/-- `panic!` at the end of `Tokenizer::next` when no token matches. -/
def no_match_msg : String := "TODO: No token matches found! Add appropriate error handling here."

/-- `panic!("TabError - ...")` in `Tokenizer::indentation`. -/
def tab_error_msg : String := "TabError - Using an inconsistent mix of tabs and spaces!"

/-- `panic!` in `Tokenizer::indentation_level` on a non-whitespace character. -/
def illegal_indentation_msg : String := "Encountered illegal characters while trying to calculate indentation level!"

/-! ## Tokenizer methods -/

/-- `Tokenizer::is_whitespace`: space, tab or form feed. -/
def is_whitespace (character : Char) : Bool :=
  character == ' ' || character == '\t' || character == formFeed

/-- The fold inside `Tokenizer::indentation_level`, running left to right
with accumulator `acc`; `none` models the `panic!` on a non-whitespace
character. -/
def indentation_level_fold : List Char → Nat → Option Nat
  | [], acc => some acc
  | c :: rest, acc =>
    if c == ' ' then indentation_level_fold rest (acc + 1)
    else if c == '\t' then indentation_level_fold rest ((acc / TAB_SIZE + 1) * TAB_SIZE)
    else if c == formFeed then indentation_level_fold rest acc
    else none

/-- `Tokenizer::indentation_level`. -/
def indentation_level (indentation : List Char) : Option Nat :=
  indentation_level_fold indentation 0

/-- `Tokenizer::whitespace_bytes`, applied to the remaining slice
`self.source[self.position..]`: the byte length of its leading
whitespace run. -/
def whitespace_bytes : List Char → Nat
  | [] => 0
  | c :: rest => if is_whitespace c then c.utf8Size + whitespace_bytes rest else 0

/-- The loop of `Tokenizer::comment`, applied to the remaining slice: the
comment's text.  It stops before a `'\n'`, or before a `'\r'` that is
immediately followed by `'\n'`; a `'\r'` followed by anything else is
consumed *together with that following character*, and at end of input
everything is taken. -/
def comment_chars : List Char → List Char
  | [] => []
  | c :: rest =>
    if c = '\n' then []
    else if c = '\r' then
      match rest with
      | c2 :: rest2 => if c2 = '\n' then [] else '\r' :: c2 :: comment_chars rest2
      | [] => ['\r']
    else c :: comment_chars rest

/-- `Tokenizer::comment`, applied to the remaining slice. -/
def comment (rem : List Char) : Option Token :=
  some ⟨TokenType.Comment, comment_chars rem⟩

/-- `Tokenizer::newline`: classify a line terminator by the bracket depth
`parentheses_level` at the moment it is scanned. -/
def newline (parentheses_level : Int) (value : List Char) : Option Token :=
  let token_type :=
    if 0 < parentheses_level then TokenType.NewlineContinuation
    else TokenType.NewlineLogical
  some ⟨token_type, value⟩

/-- `Tokenizer::name`, applied to the remaining slice: the maximal
`XID_Continue` run, NFKC-normalized before being stored as the token's
value. -/
def name (rem : List Char) : Option Token :=
  some ⟨TokenType.Name, nfkc (rem.takeWhile isXidContinue)⟩

/-- `Tokenizer::number`: an unimplemented placeholder returning `None`. -/
def number (_rem : List Char) : Option Token :=
  none

/-- `Tokenizer::simple`, applied to the remaining slice: exact match of a
fixed token text at the cursor.  `Except.error` models the slicing panic
when `position + value.len()` is not a character boundary. -/
def simple (rem : List Char) (value : List Char) (token_type : TokenType) :
    Except String (Option Token) :=
  if utf8Len value ≤ utf8Len rem then
    match takeBytes rem (utf8Len value) with
    | none => Except.error boundary_msg
    | some candidate_match =>
      if value = candidate_match then Except.ok (some ⟨token_type, value⟩)
      else Except.ok none
  else
    Except.ok none

/-- The `for simple_token_mapping in SIMPLE_TOKENS.iter()` loop in
`Tokenizer::next`: first successful `simple` match wins. -/
def simpleLoop (rem : List Char) : List (List Char × TokenType) → Except String (Option Token)
  | [] => Except.ok none
  | (value, token_type) :: more =>
    match simple rem value token_type with
    | Except.error msg => Except.error msg
    | Except.ok (some token) => Except.ok (some token)
    | Except.ok none => simpleLoop rem more

/-- `Tokenizer::indentation`, as a function of `self.indentation_stack`
and the remaining slice `self.source[self.position..]`.  `Except.error`
models the `panic!` calls. -/
def indentation (stack : List (List Char)) (rem : List Char) :
    Except String (List Token) :=
  let indentation_value := rem.takeWhile is_whitespace
  let after := rem.dropWhile is_whitespace
  let is_line_all_comment_or_whitespace : Bool :=
    match after with
    | [] => true
    | c :: rest =>
      if c = '#' then true
      else if c = '\n' then true
      else if c = '\r' then
        match rest with
        | c2 :: _ => if c2 = '\n' then true else false
        | [] => false
      else false
  if indentation_value.isEmpty || is_line_all_comment_or_whitespace then
    Except.ok []
  else
    let current_indentation_value := stack.flatten
    match indentation_level current_indentation_value with
    | none => Except.error illegal_indentation_msg
    | some current_level =>
      match indentation_level indentation_value with
      | none => Except.error illegal_indentation_msg
      | some new_level =>
        if new_level = current_level then
          if current_indentation_value.isPrefixOf indentation_value then Except.ok []
          else Except.error tab_error_msg
        else if current_level < new_level then
          if current_indentation_value.isPrefixOf indentation_value then
            Except.ok [⟨TokenType.Indent, indentation_value⟩]
          else Except.error tab_error_msg
        else
          if indentation_value.isPrefixOf current_indentation_value then Except.ok []
          else Except.error tab_error_msg

/-- `Tokenizer::update`: advance the cursor by the token's byte length,
track bracket depth, record the previous token type.  (The `TODO` about
pushing onto `indentation_stack` is unimplemented in the source: the
stack is never touched.) -/
def update (t : Tokenizer) (token : Token) : Tokenizer :=
  let parentheses_level :=
    match token.token_type with
    | TokenType.LeftBrace | TokenType.LeftParenthesis | TokenType.LeftSquareBracket =>
      t.parentheses_level + 1
    | TokenType.RightBrace | TokenType.RightParenthesis | TokenType.RightSquareBracket =>
      t.parentheses_level - 1
    | _ => t.parentheses_level
  { t with
    position := t.position + utf8Len token.value,
    parentheses_level := parentheses_level,
    previous_token_type := some token.token_type }

/-- The character dispatch in the second `or_else` closure of
`Tokenizer::next`, applied to the remaining slice. -/
def scanToken (parentheses_level : Int) (rem : List Char) : Option Token :=
  match rem with
  | [] => none
  | c :: rest =>
    if c = '#' then comment rem
    else if c = '\r' then
      if rest.head? = some '\n' then newline parentheses_level ['\r', '\n'] else none
    else if c = '\n' then newline parentheses_level ['\n']
    else if c = '.' then
      if Option.any Char.isDigit rest.head? then number rem else none
    else if c.isDigit then number rem
    else if isXidStart c then name rem
    else none

/-- Result of one call to `Tokenizer::next`: the iterator is exhausted
(`None`), yields a token, or the process panics. -/
inductive NextResult
  | finished
  | tok (token : Token)
  | panic (msg : String)
  deriving DecidableEq, Repr

/-- The scan-and-match phase of `Tokenizer::next` (second and third
`or_else` closures plus the final `match`), run at the current cursor. -/
def scanPhase (t : Tokenizer) : NextResult × Tokenizer :=
  match dropBytes t.source t.position with
  | none => (NextResult.panic boundary_msg, t)
  | some rem =>
    match scanToken t.parentheses_level rem with
    | some token => (NextResult.tok token, update t token)
    | none =>
      match simpleLoop rem SIMPLE_TOKENS with
      | Except.error msg => (NextResult.panic msg, t)
      | Except.ok (some token) => (NextResult.tok token, update t token)
      | Except.ok none => (NextResult.panic no_match_msg, t)

/-- `Tokenizer::next` (`impl Iterator for Tokenizer`). -/
def next (t : Tokenizer) : NextResult × Tokenizer :=
  if utf8Len t.source ≤ t.position then (NextResult.finished, t)
  else
    match t.token_buffer with
    | buffered :: rest_buffer =>
      let t1 := { t with token_buffer := rest_buffer }
      (NextResult.tok buffered, update t1 buffered)
    | [] =>
      if t.previous_token_type = some TokenType.NewlineLogical then
        match dropBytes t.source t.position with
        | none => (NextResult.panic boundary_msg, t)
        | some rem =>
          match indentation t.indentation_stack rem with
          | Except.error msg => (NextResult.panic msg, t)
          | Except.ok [] => scanPhase t
          | Except.ok (b :: bs) =>
            let t1 := { t with token_buffer := bs }
            (NextResult.tok b, update t1 b)
      else
        match dropBytes t.source t.position with
        | none => (NextResult.panic boundary_msg, t)
        | some rem =>
          scanPhase { t with position := t.position + whitespace_bytes rem }

/-- How a full iteration of the tokenizer ended. -/
inductive RunOutcome
  | completed
  | panicked (msg : String)
  | fuelOut
  deriving DecidableEq, Repr

/-- The tokens produced by a full iteration, how it ended, and the final
tokenizer state. -/
structure RunResult where
  tokens : List Token
  outcome : RunOutcome
  final : Tokenizer
  deriving DecidableEq, Repr

/-- Iterate `next` until `None` (or a panic), with explicit fuel. -/
def run : Tokenizer → Nat → RunResult
  | t, 0 => ⟨[], RunOutcome.fuelOut, t⟩
  | t, fuel + 1 =>
    match next t with
    | (NextResult.finished, t1) => ⟨[], RunOutcome.completed, t1⟩
    | (NextResult.panic msg, t1) => ⟨[], RunOutcome.panicked msg, t1⟩
    | (NextResult.tok token, t1) =>
      let r := run t1 fuel
      ⟨token :: r.tokens, r.outcome, r.final⟩

/-- `pub fn tokenize`: `Tokenizer::new(source).collect()`.  One token
strictly advances the byte cursor, so `utf8Len source + 1` calls always
suffice to drain the iterator. -/
def tokenize (source : List Char) : RunResult :=
  run (Tokenizer.new source) (utf8Len source + 1)

/-! ## Spec-side definitions

Definitions that follow the specification's words (not the source), used
to compare the source's behaviour against the spec. -/

/-- Spec-side definition (from the spec's words, for comparison with
`comment_chars`): the comment text extends from the cursor up to but not
including the next line terminator — the first position where `"\n"` or
`"\r\n"` begins — or to end of input if none follows. -/
def spec_comment_text : List Char → List Char
  | [] => []
  | c :: rest =>
    if c = '\n' then []
    else if c = '\r' then
      match rest with
      | c2 :: _ => if c2 = '\n' then [] else c :: spec_comment_text rest
      | [] => c :: spec_comment_text rest
    else c :: spec_comment_text rest

/-- Spec-side definition (from the spec's words, for comparison with
`indentation_level_fold`): fold left to right, a space contributes 1, a
tab advances the accumulator to the next multiple of the tab size 8, a
form feed contributes 0. -/
def spec_indentation_width_fold : List Char → Nat → Nat
  | [], acc => acc
  | c :: rest, acc =>
    if c == ' ' then spec_indentation_width_fold rest (acc + 1)
    else if c == '\t' then spec_indentation_width_fold rest (acc + (TAB_SIZE - acc % TAB_SIZE))
    else spec_indentation_width_fold rest acc

/-- Spec-side definition: the indentation width of a leading whitespace
run, per the spec's fold. -/
def spec_indentation_width (s : List Char) : Nat :=
  spec_indentation_width_fold s 0

/-! ## Claim theorems -/

/-- C1: the claim says every token sequence ends with exactly one
EndMarker token.  The code never produces an EndMarker: on input `"&"`
the iteration completes with a single Ampersand token, no EndMarker, and
every further call yields nothing (evaluating the code at the failing
input of the code bug). -/
theorem C1_endmarker_never_produced :
    (tokenize ['&']).outcome = RunOutcome.completed ∧
    (tokenize ['&']).tokens.map Token.token_type = [TokenType.Ampersand] ∧
    TokenType.EndMarker ∉ (tokenize ['&']).tokens.map Token.token_type ∧
    (next (tokenize ['&']).final).1 = NextResult.finished := by
  decide

/-- C2: the claim says a character no scanner can classify is reported as
a position-tagged InvalidCharacter error value.  The code instead panics
(`panic!("TODO: No token matches found! ...")`): on input `"$"` the very
first production step is an uncontrolled panic, not an error value
(evaluating the code at the failing input of the code bug). -/
theorem C2_invalid_character_panics :
    (next (Tokenizer.new ['$'])).1 = NextResult.panic no_match_msg ∧
    (tokenize ['$']).outcome = RunOutcome.panicked no_match_msg := by
  decide

/-- C3 counterexample: tokenizing `"a b"` succeeds, but the concatenation
of all token texts is `"ab"`, not the original source — the whitespace
skipped between tokens belongs to no token, so the round-trip claim fails
as stated. -/
theorem C3_roundtrip_counterexample :
    (tokenize "a b".data).outcome = RunOutcome.completed ∧
    ((tokenize "a b".data).tokens.map Token.value).flatten = "ab".data ∧
    ((tokenize "a b".data).tokens.map Token.value).flatten ≠ "a b".data := by
  decide

/-- C4: the claim says the cursor advances by the byte length of the raw
matched span (for Name tokens the raw identifier span, not its NFKC
form), keeping the cursor on a character boundary.  The code advances by
the byte length of the *normalized* value: on input `"ª"` (U+00AA, 2
bytes, NFKC form `"a"`, 1 byte) the cursor advances by 1, lands inside
the character, and the following step panics on the slice (evaluating the
code at the failing input of the code bug). -/
theorem C4_cursor_advances_by_normalized_length :
    (next (Tokenizer.new ['ª'])).1 = NextResult.tok ⟨TokenType.Name, ['a']⟩ ∧
    (next (Tokenizer.new ['ª'])).2.position = 1 ∧
    utf8Len ['ª'] = 2 ∧
    dropBytes ['ª'] 1 = none ∧
    (next ((next (Tokenizer.new ['ª'])).2)).1 = NextResult.panic boundary_msg := by
  decide

/-- C5: the claim says Dedent tokens are emitted per popped stack entry
and that Indents minus Dedents equals the final stack depth.  The code
never pushes onto `indentation_stack` (TODO in `update`) and the dedent
branch emits nothing (TODO in `indentation`): on input `"a\n b\n"` the
run completes with 1 Indent, 0 Dedents, and final stack depth 0
(evaluating the code at the failing input of the code bug). -/
theorem C5_dedent_balance_fails :
    (tokenize "a\n b\n".data).outcome = RunOutcome.completed ∧
    (tokenize "a\n b\n".data).tokens.countP (fun tok => tok.token_type == TokenType.Indent) = 1 ∧
    (tokenize "a\n b\n".data).tokens.countP (fun tok => tok.token_type == TokenType.Dedent) = 0 ∧
    (tokenize "a\n b\n".data).final.indentation_stack.length = 0 ∧
    (tokenize "a\n b\n".data).tokens.countP (fun tok => tok.token_type == TokenType.Indent) -
        (tokenize "a\n b\n".data).tokens.countP (fun tok => tok.token_type == TokenType.Dedent) ≠
      (tokenize "a\n b\n".data).final.indentation_stack.length := by
  decide

/-- C9 counterexample: on the remaining slice `"#\r\r\nx"` the next line
terminator is the `"\r\n"` beginning at byte 2, so the spec's comment
text is `"#\r"`; the code consumes the pair `'\r','\r'` together and
returns `"#\r\r"`, which overlaps the terminator. -/
theorem C9_comment_counterexample :
    comment "#\r\r\nx".data = some ⟨TokenType.Comment, "#\r\r".data⟩ ∧
    spec_comment_text "#\r\r\nx".data = "#\r".data ∧
    "#\r\r".data ≠ "#\r".data := by
  decide

/-- On whitespace-only input the code's fold agrees with the spec's fold
from any accumulator: the code's tab step `((acc / 8) + 1) * 8` is the
spec's "next multiple of the tab size". -/
theorem indentation_level_fold_eq_spec (s : List Char) :
    ∀ acc : Nat, (∀ c ∈ s, c = ' ' ∨ c = '\t' ∨ c = formFeed) →
      indentation_level_fold s acc = some (spec_indentation_width_fold s acc) := by
  induction s with
  | nil => intro acc _; rfl
  | cons c rest ih =>
    intro acc h
    have hc := h c (List.mem_cons_self c rest)
    have hrest : ∀ x ∈ rest, x = ' ' ∨ x = '\t' ∨ x = formFeed :=
      fun x hx => h x (List.mem_cons_of_mem c hx)
    rcases hc with hc | hc | hc <;> subst hc
    · show indentation_level_fold rest (acc + 1) =
        some (spec_indentation_width_fold rest (acc + 1))
      exact ih _ hrest
    · show indentation_level_fold rest ((acc / TAB_SIZE + 1) * TAB_SIZE) =
        some (spec_indentation_width_fold rest (acc + (TAB_SIZE - acc % TAB_SIZE)))
      rw [show (acc / TAB_SIZE + 1) * TAB_SIZE = acc + (TAB_SIZE - acc % TAB_SIZE) by
        simp only [TAB_SIZE]; omega]
      exact ih _ hrest
    · show indentation_level_fold rest acc = some (spec_indentation_width_fold rest acc)
      exact ih _ hrest

/-- C7: for every string of spaces, tabs and form feeds, the computed
indentation width is the spec's left-to-right fold — space contributes 1,
tab advances to the next multiple of the tab size 8, form feed
contributes 0. -/
theorem C7_indentation_width_matches_spec (s : List Char)
    (h : ∀ c ∈ s, c = ' ' ∨ c = '\t' ∨ c = formFeed) :
    indentation_level s = some (spec_indentation_width s) :=
  indentation_level_fold_eq_spec s 0 h

/-- C7 witness: the theorem applied to the concrete run `" \t\x0c "`. -/
theorem C7_witness :
    indentation_level " \t\x0c ".data = some (spec_indentation_width " \t\x0c ".data) :=
  C7_indentation_width_matches_spec " \t\x0c ".data (by decide)

/-- Unfolding: the comment loop stops at a `'\n'`. -/
theorem comment_chars_lf (rest : List Char) : comment_chars ('\n' :: rest) = [] := by
  rw [comment_chars.eq_def]; simp

/-- Unfolding: the comment loop stops before a `"\r\n"`. -/
theorem comment_chars_crlf (rest2 : List Char) :
    comment_chars ('\r' :: '\n' :: rest2) = [] := by
  rw [comment_chars.eq_def]; simp

/-- Unfolding: a final lone `'\r'` is taken whole. -/
theorem comment_chars_cr_end : comment_chars ['\r'] = ['\r'] := by
  rw [comment_chars.eq_def]; simp

/-- Unfolding: a `'\r'` not followed by `'\n'` is consumed together with
the following character. -/
theorem comment_chars_cr_pair (c2 : Char) (rest2 : List Char) (h : ¬ c2 = '\n') :
    comment_chars ('\r' :: c2 :: rest2) = '\r' :: c2 :: comment_chars rest2 := by
  rw [comment_chars.eq_def]; simp [h]

/-- Unfolding: an ordinary character is consumed one at a time. -/
theorem comment_chars_other (c : Char) (rest : List Char)
    (h1 : ¬ c = '\n') (h2 : ¬ c = '\r') :
    comment_chars (c :: rest) = c :: comment_chars rest := by
  rw [comment_chars.eq_def]; simp [h1, h2]

/-- The comment text is a prefix of the remaining slice, and what follows
it is nothing, a `'\n'`, or a `"\r\n"`. -/
theorem comment_chars_decomp (rem : List Char) :
    ∃ rest, rem = comment_chars rem ++ rest ∧
      (rest = [] ∨ (∃ r, rest = '\n' :: r) ∨ (∃ r, rest = '\r' :: '\n' :: r)) := by
  induction rem using comment_chars.induct with
  | case1 => exact ⟨[], rfl, Or.inl rfl⟩
  | case2 rest =>
    exact ⟨'\n' :: rest, by simp [comment_chars_lf], Or.inr (Or.inl ⟨rest, rfl⟩)⟩
  | case3 rest2 h =>
    exact ⟨'\r' :: '\n' :: rest2, by simp [comment_chars_crlf],
      Or.inr (Or.inr ⟨rest2, rfl⟩)⟩
  | case4 c2 rest2 h1 h2 ih =>
    obtain ⟨rest, hA, hB⟩ := ih
    exact ⟨rest, by rw [comment_chars_cr_pair c2 rest2 h1]; simpa using hA, hB⟩
  | case5 h => exact ⟨[], by simp [comment_chars_cr_end], Or.inl rfl⟩
  | case6 c rest h1 h2 ih =>
    obtain ⟨rest', hA, hB⟩ := ih
    exact ⟨rest', by rw [comment_chars_other c rest h1 h2]; simpa using hA, hB⟩

/-- The comment text never contains a `'\n'`. -/
theorem comment_chars_no_newline (rem : List Char) : '\n' ∉ comment_chars rem := by
  induction rem using comment_chars.induct with
  | case1 => simp [comment_chars.eq_def]
  | case2 rest => simp [comment_chars_lf]
  | case3 rest2 h => simp [comment_chars_crlf]
  | case4 c2 rest2 h1 h2 ih =>
    rw [comment_chars_cr_pair c2 rest2 h1]
    simp only [List.mem_cons]
    intro hmem
    rcases hmem with hmem | hmem | hmem
    · exact absurd hmem.symm h2
    · exact absurd hmem.symm h1
    · exact ih hmem
  | case5 h => simp [comment_chars_cr_end]
  | case6 c rest h1 h2 ih =>
    rw [comment_chars_other c rest h1 h2]
    simp only [List.mem_cons]
    intro hmem
    rcases hmem with hmem | hmem
    · exact absurd hmem.symm h1
    · exact ih hmem

/-- Without a bare `'\r'` in the remaining slice, the code's comment text
agrees with the spec's "up to the next line terminator". -/
theorem comment_chars_eq_spec_of_no_cr (rem : List Char) (h : '\r' ∉ rem) :
    comment_chars rem = spec_comment_text rem := by
  induction rem using comment_chars.induct with
  | case1 => rfl
  | case2 rest => rw [comment_chars_lf, spec_comment_text.eq_def]; simp
  | case3 rest2 h3 => exact absurd (List.mem_cons_self '\r' _) h
  | case4 c2 rest2 h1 h2 ih => exact absurd (List.mem_cons_self '\r' _) h
  | case5 h5 => exact absurd (List.mem_cons_self '\r' _) h
  | case6 c rest h1 h2 ih =>
    have hr : '\r' ∉ rest := fun hmem => h (List.mem_cons_of_mem c hmem)
    rw [comment_chars_other c rest h1 h2, spec_comment_text.eq_def]
    simp [h1, h2, ih hr]

/-- C9 amended: the Comment token's text is the prefix of the remaining
slice obtained by scanning for a terminator, where a `'\r'` not
immediately followed by `'\n'` is consumed *together with the following
character* as comment content; the text never contains `'\n'`, scanning
resumes at end-of-input, at a `'\n'`, or at a `"\r\n"`, and whenever the
slice contains no bare `'\r'` the text is exactly the spec's
"up to but not including the next line terminator". -/
theorem C9_comment_scan (rem : List Char) :
    comment rem = some ⟨TokenType.Comment, comment_chars rem⟩ ∧
    (∃ rest, rem = comment_chars rem ++ rest ∧
      (rest = [] ∨ (∃ r, rest = '\n' :: r) ∨ (∃ r, rest = '\r' :: '\n' :: r))) ∧
    '\n' ∉ comment_chars rem ∧
    ('\r' ∉ rem → comment_chars rem = spec_comment_text rem) :=
  ⟨rfl, comment_chars_decomp rem, comment_chars_no_newline rem,
    fun h => comment_chars_eq_spec_of_no_cr rem h⟩

/-- C9 witness: the theorem applied to the concrete slice `"#abc\ndef"`,
whose comment text matches the spec (no bare `'\r'`). -/
theorem C9_witness :
    comment_chars "#abc\ndef".data = spec_comment_text "#abc\ndef".data :=
  (C9_comment_scan "#abc\ndef".data).2.2.2 (by decide)

/-- Unfolding: `newline` classifies by bracket depth and keeps the text. -/
theorem newline_cases (p : Int) (v : List Char) :
    newline p v = some ⟨if 0 < p then TokenType.NewlineContinuation
      else TokenType.NewlineLogical, v⟩ := rfl

/-- Everything the character dispatcher returns is a Comment, Newline or
Name token — never an Indent or Dedent. -/
theorem scanToken_types (p : Int) (rem : List Char) (tok : Token)
    (h : scanToken p rem = some tok) :
    tok.token_type = TokenType.Comment ∨ tok.token_type = TokenType.NewlineContinuation ∨
      tok.token_type = TokenType.NewlineLogical ∨ tok.token_type = TokenType.Name := by
  cases rem with
  | nil => exact absurd h (by simp [scanToken])
  | cons c rest =>
    simp only [scanToken, comment, newline, name, number] at h
    repeat' split at h
    all_goals simp only [Option.some.injEq, reduceCtorEq] at h
    all_goals first
      | exact h.elim
      | (rw [← h]; simp)

/-- Every token the simple-token loop returns carries an entry of the
table: its text is the entry's text and its type the entry's type. -/
theorem simpleLoop_mem (rem : List Char) (tbl : List (List Char × TokenType)) (tok : Token)
    (h : simpleLoop rem tbl = Except.ok (some tok)) :
    (tok.value, tok.token_type) ∈ tbl := by
  induction tbl with
  | nil => simp [simpleLoop] at h
  | cons entry more ih =>
    obtain ⟨v, tt⟩ := entry
    simp only [simpleLoop] at h
    split at h
    · exact absurd h (by simp)
    · rename_i heq
      unfold simple at heq
      split at heq
      · split at heq
        · exact absurd heq (by simp)
        · split at heq
          · rw [Except.ok.injEq, Option.some.injEq] at heq h
            rw [← h, ← heq]
            simp
          · exact absurd heq (by simp)
      · exact absurd heq (by simp)
    · exact List.mem_cons_of_mem _ (ih h)

/-- No entry of `SIMPLE_TOKENS` is an Indent or a Dedent. -/
theorem simple_tokens_no_indent :
    ∀ p ∈ SIMPLE_TOKENS, ¬ p.2 = TokenType.Indent ∧ ¬ p.2 = TokenType.Dedent := by
  decide

/-- The scan-and-match phase never produces an Indent or Dedent token. -/
theorem scanPhase_no_indent (t : Tokenizer) (tok : Token) (t' : Tokenizer)
    (h : scanPhase t = (NextResult.tok tok, t')) :
    ¬ tok.token_type = TokenType.Indent ∧ ¬ tok.token_type = TokenType.Dedent := by
  unfold scanPhase at h
  split at h
  · exact absurd h (by simp)
  · split at h
    · rename_i heq
      injection h with h1 h2
      injection h1 with h1
      subst h1
      rcases scanToken_types _ _ _ heq with ht | ht | ht | ht <;>
        exact ⟨by rw [ht]; intro hc; exact absurd hc (by simp),
          by rw [ht]; intro hc; exact absurd hc (by simp)⟩
    · split at h
      · exact absurd h (by simp)
      · rename_i heq
        injection h with h1 h2
        injection h1 with h1
        subst h1
        have := simpleLoop_mem _ _ _ heq
        exact simple_tokens_no_indent _ this
      · exact absurd h (by simp)

/-- C6: a scanned `"\n"` or `"\r\n"` becomes NewlineContinuation exactly
when the bracket depth is positive and NewlineLogical when it is zero (or
below); a bare `'\r'` is never recognized as a line terminator by the
dispatcher; and with an empty pending buffer a production step whose
previous token was not NewlineLogical never produces an Indent or Dedent
token — only a NewlineLogical predecessor triggers indentation
analysis. -/
theorem C6_newline_classification (t : Tokenizer) (p : Int) (c : Char) (rest : List Char) :
    (scanToken p ('\n' :: rest) =
      some ⟨if 0 < p then TokenType.NewlineContinuation else TokenType.NewlineLogical, ['\n']⟩) ∧
    (scanToken p ('\r' :: '\n' :: rest) =
      some ⟨if 0 < p then TokenType.NewlineContinuation else TokenType.NewlineLogical,
        ['\r', '\n']⟩) ∧
    (¬ c = '\n' → scanToken p ('\r' :: c :: rest) = none) ∧
    (scanToken p ['\r'] = none) ∧
    (t.token_buffer = [] → ¬ t.previous_token_type = some TokenType.NewlineLogical →
      ∀ tok t', next t = (NextResult.tok tok, t') →
        ¬ tok.token_type = TokenType.Indent ∧ ¬ tok.token_type = TokenType.Dedent) := by
  refine ⟨rfl, rfl, fun hc => ?_, rfl, fun hbuf hprev tok t' h => ?_⟩
  · simp [scanToken, hc]
  · unfold next at h
    simp only [hbuf, if_neg hprev] at h
    split at h
    · exact absurd h (by simp)
    · split at h
      · exact absurd h (by simp)
      · exact scanPhase_no_indent _ _ _ h

/-- C6 witness: the theorem applied at bracket depths 1 and 0 and at a
concrete non-NewlineLogical step. -/
theorem C6_witness :
    scanToken 1 ['\n'] = some ⟨TokenType.NewlineContinuation, ['\n']⟩ ∧
    scanToken 0 ['\n'] = some ⟨TokenType.NewlineLogical, ['\n']⟩ ∧
    scanToken 0 ['\r', 'x'] = none ∧
    ¬ (Token.mk TokenType.Name ['a']).token_type = TokenType.Indent := by
  refine ⟨?_, ?_, ?_, ?_⟩
  · have h := (C6_newline_classification (Tokenizer.new ['a']) 1 'x' []).1
    simpa using h
  · have h := (C6_newline_classification (Tokenizer.new ['a']) 0 'x' []).1
    simpa using h
  · exact (C6_newline_classification (Tokenizer.new ['a']) 0 'x' []).2.2.1 (by decide)
  · exact ((C6_newline_classification (Tokenizer.new ['a']) 0 'x' []).2.2.2.2
      rfl (by simp [Tokenizer.new]) ⟨TokenType.Name, ['a']⟩
      ⟨['a'], 1, 0, some TokenType.Name, [], []⟩ (by decide)).1

/-! ## Byte-arithmetic lemmas -/

theorem utf8Len_append (a b : List Char) :
    utf8Len (a ++ b) = utf8Len a + utf8Len b := by
  simp [utf8Len]

theorem utf8Len_le_of_prefix {v w : List Char} (h : v <+: w) :
    utf8Len v ≤ utf8Len w := by
  obtain ⟨r, rfl⟩ := h
  simp [utf8Len_append]

theorem utf8Size_pos' (c : Char) : 0 < c.utf8Size := by
  have := Char.utf8Size_pos c
  omega

theorem utf8Len_pos {s : List Char} (h : s ≠ []) : 0 < utf8Len s := by
  cases s with
  | nil => exact absurd rfl h
  | cons c rest =>
    have := utf8Size_pos' c
    simp [utf8Len]
    omega

/-- Unfolding lemma for `takeBytes` at a positive byte count. -/
theorem takeBytes_cons (c : Char) (rest : List Char) (n : Nat) (h : 0 < n) :
    takeBytes (c :: rest) n =
      if c.utf8Size ≤ n then (takeBytes rest (n - c.utf8Size)).map (fun l => c :: l)
      else none := by
  cases n with
  | zero => omega
  | succ m => rw [takeBytes.eq_def]

/-- Taking exactly the bytes of a prefix returns that prefix. -/
theorem takeBytes_append (v r : List Char) :
    takeBytes (v ++ r) (utf8Len v) = some v := by
  induction v with
  | nil => cases r with | nil => rfl | cons c r' => rfl
  | cons c v' ih =>
    have hsz := utf8Size_pos' c
    have hlen : utf8Len (c :: v') = c.utf8Size + utf8Len v' := by simp [utf8Len]
    rw [List.cons_append, hlen,
      takeBytes_cons c (v' ++ r) (c.utf8Size + utf8Len v') (by omega),
      if_pos (by omega)]
    simp [ih]

/-- Whatever `takeBytes` returns is a prefix of the input. -/
theorem takeBytes_prefix (s : List Char) (n : Nat) (v : List Char)
    (h : takeBytes s n = some v) : v <+: s := by
  induction s generalizing n v with
  | nil =>
    cases n with
    | zero => cases h; exact List.nil_prefix
    | succ m => simp [takeBytes] at h
  | cons c rest ih =>
    cases n with
    | zero => cases h; exact List.nil_prefix
    | succ m =>
      rw [takeBytes_cons c rest (m + 1) (by omega)] at h
      split at h
      · rw [Option.map_eq_some'] at h
        obtain ⟨v', hv', rfl⟩ := h
        exact List.cons_prefix_cons.mpr ⟨rfl, ih _ _ hv'⟩
      · exact absurd h (by simp)

/-- Unfolding lemma for `dropBytes` at a positive byte count. -/
theorem dropBytes_cons (c : Char) (rest : List Char) (n : Nat) (h : 0 < n) :
    dropBytes (c :: rest) n =
      if c.utf8Size ≤ n then dropBytes rest (n - c.utf8Size) else none := by
  cases n with
  | zero => omega
  | succ m => rw [dropBytes.eq_def]

/-- Dropping exactly the bytes of a prefix returns the suffix. -/
theorem dropBytes_append (v r : List Char) :
    dropBytes (v ++ r) (utf8Len v) = some r := by
  induction v with
  | nil => cases r with | nil => rfl | cons c r' => rfl
  | cons c v' ih =>
    have hsz := utf8Size_pos' c
    have hlen : utf8Len (c :: v') = c.utf8Size + utf8Len v' := by simp [utf8Len]
    rw [List.cons_append, hlen,
      dropBytes_cons c (v' ++ r) (c.utf8Size + utf8Len v') (by omega),
      if_pos (by omega)]
    simpa using ih

/-! ## C8: longest match in the simple-token table -/

deriving instance DecidableEq for Except

/-- A fixed token text that is a prefix of the remaining slice matches. -/
theorem simple_ok_of_isPrefix (rem v : List Char) (tt : TokenType) (hpre : v <+: rem) :
    simple rem v tt = Except.ok (some ⟨tt, v⟩) := by
  obtain ⟨r, rfl⟩ := hpre
  unfold simple
  rw [if_pos (by rw [utf8Len_append]; omega), takeBytes_append]
  simp

/-- A successful `simple` match means the entry's text is a prefix of the
remaining slice and the token is built from the entry. -/
theorem simple_eq_some (rem v : List Char) (tt : TokenType) (tok : Token)
    (h : simple rem v tt = Except.ok (some tok)) :
    tok = ⟨tt, v⟩ ∧ v <+: rem := by
  unfold simple at h
  split at h
  · split at h
    · exact absurd h (by simp)
    · rename_i cand heq
      split at h
      · rename_i hv
        rw [Except.ok.injEq, Option.some.injEq] at h
        exact ⟨h.symm, hv ▸ takeBytes_prefix _ _ _ heq⟩
      · exact absurd h (by simp)
  · exact absurd h (by simp)

/-- In a table satisfying the ordering invariant (no entry is a proper
prefix of a later entry), the loop's first match is a longest match. -/
theorem simpleLoop_longest (rem : List Char) :
    ∀ tbl : List (List Char × TokenType),
      List.Pairwise (fun a b => ¬ (a.1 <+: b.1 ∧ ¬ a.1 = b.1)) tbl →
      ∀ tok : Token, simpleLoop rem tbl = Except.ok (some tok) →
      ∀ v tt, (v, tt) ∈ tbl → v <+: rem → utf8Len v ≤ utf8Len tok.value := by
  intro tbl
  induction tbl with
  | nil => intro _ tok h v tt hmem _; simp at hmem
  | cons entry more ih =>
    obtain ⟨v0, tt0⟩ := entry
    intro hpw tok h v tt hmem hpre
    rw [List.pairwise_cons] at hpw
    obtain ⟨hhead, hmore⟩ := hpw
    simp only [simpleLoop] at h
    split at h
    · exact absurd h (by simp)
    · rename_i heq
      rw [Except.ok.injEq, Option.some.injEq] at h
      subst h
      obtain ⟨htok, hpre0⟩ := simple_eq_some _ _ _ _ heq
      subst htok
      rcases List.mem_cons.mp hmem with hmem | hmem
      · cases hmem
        exact le_refl _
      · rcases List.prefix_or_prefix_of_prefix hpre hpre0 with hvp | hvp
        · exact utf8Len_le_of_prefix hvp
        · by_cases hveq : v0 = v
          · subst hveq; exact le_refl _
          · exact absurd ⟨hvp, hveq⟩ (hhead (v, tt) hmem)
    · rename_i heq
      rcases List.mem_cons.mp hmem with hmem | hmem
      · cases hmem
        rw [simple_ok_of_isPrefix rem _ _ hpre] at heq
        exact absurd heq (by simp)
      · exact ih hmore tok h v tt hmem hpre

/-- C8: the ordered table satisfies the ordering invariant — every entry
appears before every entry that is one of its own proper prefixes — and
consequently the simple-token matcher returns the longest table entry
matching at the cursor. -/
theorem C8_longest_match :
    List.Pairwise (fun a b => ¬ (a.1 <+: b.1 ∧ ¬ a.1 = b.1)) SIMPLE_TOKENS ∧
    (∀ rem tok, simpleLoop rem SIMPLE_TOKENS = Except.ok (some tok) →
      ∀ v tt, (v, tt) ∈ SIMPLE_TOKENS → v <+: rem → utf8Len v ≤ utf8Len tok.value) :=
  ⟨by decide, fun rem tok h => simpleLoop_longest rem SIMPLE_TOKENS (by decide) tok h⟩

/-- C8 witness: at a cursor reading `"**=x"`, the matcher returns `"**="`
(DoubleStarEqual), which is at least as long as the also-matching
`"**"`. -/
theorem C8_witness :
    utf8Len "**".data ≤ utf8Len (Token.mk TokenType.DoubleStarEqual "**=".data).value :=
  C8_longest_match.2 "**=x".data ⟨TokenType.DoubleStarEqual, "**=".data⟩ (by decide)
    "**".data TokenType.DoubleStar (by decide) (by decide)

/-! ## Step-characterization lemmas for `next` -/

/-- One character's NFKC form is never empty. -/
theorem nfkcChar_ne_nil (c : Char) : ¬ nfkcChar c = [] := by
  unfold nfkcChar
  split <;> simp

/-- NFKC is the identity on NFKC-invariant text. -/
theorem nfkc_of_invariant {s : List Char} (h : ∀ x ∈ s, nfkcChar x = [x]) :
    nfkc s = s := by
  induction s with
  | nil => rfl
  | cons c rest ih =>
    have hc := h c (List.mem_cons_self c rest)
    have hrest := fun x hx => h x (List.mem_cons_of_mem c hx)
    simp [nfkc] at ih ⊢
    rw [hc, ih hrest]
    rfl

/-- NFKC of nonempty text is nonempty. -/
theorem nfkc_ne_nil {s : List Char} (h : ¬ s = []) : ¬ nfkc s = [] := by
  cases s with
  | nil => exact absurd rfl h
  | cons c rest =>
    simp only [nfkc, List.map_cons, List.flatten_cons]
    intro hc
    exact nfkcChar_ne_nil c (List.append_eq_nil.mp hc).1

/-- `XID_Start` characters are `XID_Continue` characters. -/
theorem isXidContinue_of_start {c : Char} (h : isXidStart c = true) :
    isXidContinue c = true := by
  simp [isXidContinue, h]

/-- `whitespace_bytes` is the byte length of the leading whitespace run. -/
theorem whitespace_bytes_eq (s : List Char) :
    whitespace_bytes s = utf8Len (s.takeWhile is_whitespace) := by
  induction s with
  | nil => rfl
  | cons c rest ih =>
    by_cases hc : is_whitespace c
    · rw [whitespace_bytes.eq_def]
      simp [List.takeWhile_cons, hc, ih, utf8Len]
    · rw [whitespace_bytes.eq_def]
      simp [List.takeWhile_cons, hc, utf8Len]

theorem update_source (t : Tokenizer) (v : Token) : (update t v).source = t.source := rfl

theorem update_position (t : Tokenizer) (v : Token) :
    (update t v).position = t.position + utf8Len v.value := rfl

theorem update_buffer (t : Tokenizer) (v : Token) :
    (update t v).token_buffer = t.token_buffer := rfl

/-- The scan-and-match phase never reports an exhausted iterator. -/
theorem scanPhase_ne_finished (t t' : Tokenizer)
    (h : scanPhase t = (NextResult.finished, t')) : False := by
  unfold scanPhase at h
  split at h
  · simp at h
  · split at h
    · simp at h
    · split at h <;> simp at h

/-- `next` reports an exhausted iterator only when the cursor is at or
past the end of the source. -/
theorem next_finished (t t' : Tokenizer)
    (h : next t = (NextResult.finished, t')) : utf8Len t.source ≤ t.position := by
  unfold next at h
  split at h
  · assumption
  · split at h
    · simp at h
    · split at h
      · split at h
        · simp at h
        · split at h
          · simp at h
          · exact absurd h (fun hh => scanPhase_ne_finished _ _ hh)
          · simp at h
      · split at h
        · simp at h
        · exact absurd h (fun hh => scanPhase_ne_finished _ _ hh)

/-- Every text in the simple-token table is nonempty. -/
theorem simple_tokens_ne_nil : ∀ p ∈ SIMPLE_TOKENS, ¬ p.1 = ([] : List Char) := by
  decide

/-- A successful simple-token loop yields a token whose text is a
nonempty prefix of the remaining slice. -/
theorem simpleLoop_value (rem : List Char) (tbl : List (List Char × TokenType)) (tok : Token)
    (hne : ∀ p ∈ tbl, ¬ p.1 = ([] : List Char))
    (h : simpleLoop rem tbl = Except.ok (some tok)) :
    tok.value <+: rem ∧ ¬ tok.value = [] := by
  induction tbl with
  | nil => simp [simpleLoop] at h
  | cons entry more ih =>
    obtain ⟨v, tt⟩ := entry
    simp only [simpleLoop] at h
    split at h
    · exact absurd h (by simp)
    · rename_i heq
      rw [Except.ok.injEq, Option.some.injEq] at h
      subst h
      obtain ⟨htok, hpre⟩ := simple_eq_some _ _ _ _ heq
      subst htok
      exact ⟨hpre, hne (v, tt) (List.mem_cons_self _ _)⟩
    · exact ih (fun p hp => hne p (List.mem_cons_of_mem _ hp)) h

/-- A token from the character dispatcher has nonempty text, and — when
the slice is NFKC-invariant — its text is a prefix of the slice. -/
theorem scanToken_value (p : Int) (rem : List Char) (tok : Token)
    (h : scanToken p rem = some tok) :
    ¬ tok.value = [] ∧
      ((∀ x ∈ rem, nfkcChar x = [x]) → tok.value <+: rem) := by
  cases rem with
  | nil => exact absurd h (by simp [scanToken])
  | cons c rest =>
    simp only [scanToken] at h
    by_cases h1 : c = '#'
    · rw [if_pos h1] at h
      unfold comment at h
      rw [Option.some.injEq] at h
      subst h
      subst h1
      constructor
      · rw [comment_chars_other '#' rest (by decide) (by decide)]
        simp
      · intro _
        obtain ⟨r, hr, _⟩ := comment_chars_decomp ('#' :: rest)
        exact ⟨r, hr.symm⟩
    · rw [if_neg h1] at h
      by_cases h2 : c = '\r'
      · rw [if_pos h2] at h
        by_cases h3 : rest.head? = some '\n'
        · rw [if_pos h3] at h
          unfold newline at h
          rw [Option.some.injEq] at h
          subst h
          cases rest with
          | nil => simp at h3
          | cons c2 rest2 =>
            rw [List.head?_cons, Option.some.injEq] at h3
            subst h3
            subst h2
            exact ⟨by simp, fun _ => ⟨rest2, rfl⟩⟩
        · rw [if_neg h3] at h
          exact absurd h (by simp)
      · rw [if_neg h2] at h
        by_cases h3 : c = '\n'
        · rw [if_pos h3] at h
          unfold newline at h
          rw [Option.some.injEq] at h
          subst h
          subst h3
          exact ⟨by simp, fun _ => ⟨rest, rfl⟩⟩
        · rw [if_neg h3] at h
          by_cases h4 : c = '.'
          · rw [if_pos h4] at h
            by_cases h5 : Option.any Char.isDigit rest.head? = true
            · rw [if_pos h5] at h
              exact absurd h (by simp [number])
            · rw [if_neg h5] at h
              exact absurd h (by simp)
          · rw [if_neg h4] at h
            by_cases h5 : c.isDigit = true
            · rw [if_pos h5] at h
              exact absurd h (by simp [number])
            · rw [if_neg h5] at h
              by_cases h6 : isXidStart c = true
              · rw [if_pos h6] at h
                unfold name at h
                rw [Option.some.injEq] at h
                subst h
                have htw : (c :: rest).takeWhile isXidContinue =
                    c :: rest.takeWhile isXidContinue := by
                  rw [List.takeWhile_cons, if_pos (isXidContinue_of_start h6)]
                constructor
                · show ¬ nfkc ((c :: rest).takeWhile isXidContinue) = []
                  rw [htw]
                  exact nfkc_ne_nil (by simp)
                · intro hinv
                  show nfkc ((c :: rest).takeWhile isXidContinue) <+: c :: rest
                  have hsub : ∀ x ∈ (c :: rest).takeWhile isXidContinue,
                      nfkcChar x = [x] :=
                    fun x hx => hinv x ((List.takeWhile_prefix _).subset hx)
                  rw [nfkc_of_invariant hsub]
                  exact List.takeWhile_prefix _
              · rw [if_neg h6] at h
                exact absurd h (by simp)

/-- A non-panicking indentation analysis yields either nothing or exactly
one Indent token carrying the (nonempty) leading whitespace run. -/
theorem indentation_ok_cases (stack : List (List Char)) (rem : List Char) (l : List Token)
    (h : indentation stack rem = Except.ok l) :
    l = [] ∨ (l = [⟨TokenType.Indent, rem.takeWhile is_whitespace⟩] ∧
      ¬ rem.takeWhile is_whitespace = []) := by
  simp only [indentation] at h
  split at h
  · rw [Except.ok.injEq] at h
    exact Or.inl h.symm
  · rename_i hcond
    have htw : ¬ rem.takeWhile is_whitespace = [] := by
      intro hnil
      exact hcond (by simp [hnil])
    repeat' split at h
    all_goals first
      | (rw [Except.ok.injEq] at h
         first
           | exact Or.inl h.symm
           | exact Or.inr ⟨h.symm, htw⟩)
      | simp at h

/-- A token-producing scan phase updates the state via `update`, yields
nonempty text, and — at a cursor splitting the source into `consumed`
and an NFKC-invariant `rem` — its text is a prefix of `rem`. -/
theorem scanPhase_basic (t : Tokenizer) (v : Token) (t' : Tokenizer)
    (h : scanPhase t = (NextResult.tok v, t')) :
    ¬ v.value = [] ∧ t' = update t v ∧
      (∀ consumed rem, t.source = consumed ++ rem → t.position = utf8Len consumed →
        (∀ x ∈ rem, nfkcChar x = [x]) → v.value <+: rem) := by
  unfold scanPhase at h
  split at h
  · simp at h
  · rename_i rem0 hdrop
    split at h
    · rename_i token heq
      rw [Prod.mk.injEq] at h
      obtain ⟨h1, h2⟩ := h
      rw [NextResult.tok.injEq] at h1
      subst h1
      obtain ⟨hne, hpre⟩ := scanToken_value _ _ _ heq
      refine ⟨hne, h2.symm, fun consumed rem hsrc hpos hinv => ?_⟩
      rw [hsrc, hpos, dropBytes_append] at hdrop
      rw [Option.some.injEq] at hdrop
      subst hdrop
      exact hpre hinv
    · split at h
      · exact absurd h (by simp)
      · rename_i heq
        rw [Prod.mk.injEq] at h
        obtain ⟨h1, h2⟩ := h
        rw [NextResult.tok.injEq] at h1
        subst h1
        obtain ⟨hpre, hne⟩ := simpleLoop_value _ _ _ simple_tokens_ne_nil heq
        refine ⟨hne, h2.symm, fun consumed rem hsrc hpos hinv => ?_⟩
        rw [hsrc, hpos, dropBytes_append] at hdrop
        rw [Option.some.injEq] at hdrop
        subst hdrop
        exact hpre
      · exact absurd h (by simp)

/-- Any token-producing call to `next` yields nonempty text and advances
the byte cursor by at least that text's length, preserving the source and
the nonempty-buffer-texts invariant. -/
theorem next_tok_basic (t : Tokenizer)
    (hbufinv : ∀ b ∈ t.token_buffer, ¬ b.value = [])
    (v : Token) (t' : Tokenizer) (h : next t = (NextResult.tok v, t')) :
    ¬ v.value = [] ∧ t.position < utf8Len t.source ∧ t'.source = t.source ∧
      t.position + utf8Len v.value ≤ t'.position ∧
      (∀ b ∈ t'.token_buffer, ¬ b.value = []) := by
  unfold next at h
  split at h
  · simp at h
  · rename_i hlt
    have hlt' : t.position < utf8Len t.source := by omega
    split at h
    · rename_i buffered rest_buffer hbufeq
      rw [Prod.mk.injEq] at h
      obtain ⟨h1, h2⟩ := h
      rw [NextResult.tok.injEq] at h1
      subst h1
      have hmem : buffered ∈ t.token_buffer := by
        rw [hbufeq]; exact List.mem_cons_self _ _
      refine ⟨hbufinv buffered hmem, hlt', ?_, ?_, ?_⟩
      · simp [← h2, update]
      · simp [← h2, update]
      · simp only [← h2, update, update_buffer]
        intro b hb
        have hb' : b ∈ rest_buffer := hb
        exact hbufinv b (by rw [hbufeq]; exact List.mem_cons_of_mem _ hb')
    · rename_i hbufeq
      split at h
      · split at h
        · simp at h
        · rename_i rem0 hdrop
          split at h
          · simp at h
          · -- indentation yielded nothing: plain scan at the cursor
            obtain ⟨hne, hupd, _⟩ := scanPhase_basic _ _ _ h
            refine ⟨hne, hlt', ?_, ?_, ?_⟩
            · simp [hupd, update]
            · simp [hupd, update]
            · simp [hupd, update, hbufeq]
          · rename_i b bs heq
            rw [Prod.mk.injEq] at h
            obtain ⟨h1, h2⟩ := h
            rw [NextResult.tok.injEq] at h1
            subst h1
            rcases indentation_ok_cases _ _ _ heq with hl | ⟨hl, htw⟩
            · exact absurd hl (by simp)
            · rw [List.cons.injEq] at hl
              obtain ⟨hb, hbs⟩ := hl
              refine ⟨by rw [hb]; simpa using htw, hlt', ?_, ?_, ?_⟩
              · simp [← h2, update]
              · simp [← h2, update]
              · simp [← h2, update, hbs]
      · split at h
        · simp at h
        · rename_i rem0 hdrop
          obtain ⟨hne, hupd, _⟩ := scanPhase_basic _ _ _ h
          refine ⟨hne, hlt', ?_, ?_, ?_⟩
          · simp [hupd, update]
          · rw [hupd, update_position]
            show t.position + utf8Len v.value ≤
              t.position + whitespace_bytes rem0 + utf8Len v.value
            omega
          · simp [hupd, update, hbufeq]

/-- The C3 production step: with an empty buffer and the cursor splitting
the source into `consumed ++ rem` with `rem` NFKC-invariant, a
token-producing call to `next` consumes a whitespace run `w` followed by
the token's own text from the front of `rem`, leaving the buffer empty
and the cursor right after the consumed text. -/
theorem next_tok_decomp (t : Tokenizer) (consumed rem : List Char)
    (hsrc : t.source = consumed ++ rem) (hpos : t.position = utf8Len consumed)
    (hbuf : t.token_buffer = [])
    (hinv : ∀ x ∈ rem, nfkcChar x = [x])
    (v : Token) (t' : Tokenizer) (h : next t = (NextResult.tok v, t')) :
    ∃ w rest', rem = w ++ (v.value ++ rest') ∧ (∀ x ∈ w, is_whitespace x = true) ∧
      t'.source = t.source ∧ t'.token_buffer = [] ∧
      t'.position = utf8Len (consumed ++ w ++ v.value) := by
  unfold next at h
  split at h
  · simp at h
  · rename_i hlt
    simp only [hbuf] at h
    split at h
    · -- previous token was NewlineLogical: indentation analysis first
      simp only [hsrc, hpos, dropBytes_append] at h
      split at h
      · simp at h
      · -- indentation yielded nothing: plain scan at the cursor
        obtain ⟨hne, hupd, hpre⟩ := scanPhase_basic _ _ _ h
        obtain ⟨r, hr⟩ := hpre consumed rem hsrc hpos hinv
        refine ⟨[], r, by simpa using hr.symm, by simp, ?_, ?_, ?_⟩
        · simp [hupd, update]
        · simp [hupd, update, hbuf]
        · rw [hupd, update_position, hpos]
          simp [utf8Len_append]
      · -- indentation yielded an Indent token
        rename_i b bs heq
        rw [Prod.mk.injEq] at h
        obtain ⟨h1, h2⟩ := h
        rw [NextResult.tok.injEq] at h1
        subst h1
        rcases indentation_ok_cases _ _ _ heq with hl | ⟨hl, htw⟩
        · exact absurd hl (by simp)
        · rw [List.cons.injEq] at hl
          obtain ⟨hb, hbs⟩ := hl
          refine ⟨[], rem.dropWhile is_whitespace, ?_, by simp, ?_, ?_, ?_⟩
          · rw [hb]
            simp [List.takeWhile_append_dropWhile]
          · simp [← h2, update, hsrc]
          · simp [← h2, update, hbs]
          · rw [← h2, update_position]
            show utf8Len consumed + utf8Len b.value = utf8Len (consumed ++ [] ++ b.value)
            rw [hb]
            simp [utf8Len_append]
    · -- ordinary step: skip intertoken whitespace, then scan
      simp only [hsrc, hpos, dropBytes_append] at h
      obtain ⟨hne, hupd, hpre⟩ := scanPhase_basic _ _ _ h
      have hsplit : rem = rem.takeWhile is_whitespace ++ rem.dropWhile is_whitespace :=
        (List.takeWhile_append_dropWhile is_whitespace rem).symm
      obtain ⟨r, hr⟩ := hpre (consumed ++ rem.takeWhile is_whitespace)
        (rem.dropWhile is_whitespace)
        (by
          show consumed ++ rem =
            (consumed ++ rem.takeWhile is_whitespace) ++ rem.dropWhile is_whitespace
          rw [List.append_assoc, ← hsplit])
        (by
          show utf8Len consumed + whitespace_bytes rem =
            utf8Len (consumed ++ rem.takeWhile is_whitespace)
          rw [whitespace_bytes_eq, utf8Len_append])
        (fun x hx => hinv x ((List.dropWhile_sublist _).subset hx))
      refine ⟨rem.takeWhile is_whitespace, r, ?_, ?_, ?_, ?_, ?_⟩
      · rw [← hr] at hsplit
        exact hsplit
      · intro x hx
        exact List.mem_takeWhile_imp hx
      · simp [hupd, update, hsrc]
      · simp [hupd, update, hbuf]
      · rw [hupd, update_position]
        show utf8Len consumed + whitespace_bytes rem + utf8Len v.value = _
        rw [whitespace_bytes_eq]
        simp only [utf8Len_append]

/-- Over a whole iteration, the number of produced tokens is bounded by
the bytes left between the cursor and the end of the source. -/
theorem run_length_le : ∀ (fuel : Nat) (t : Tokenizer),
    (∀ b ∈ t.token_buffer, ¬ b.value = []) →
    (run t fuel).tokens.length ≤ utf8Len t.source - t.position := by
  intro fuel
  induction fuel with
  | zero => intro t _; simp [run]
  | succ n ih =>
    intro t hbufinv
    rcases hnext : next t with ⟨res, t1⟩
    cases res with
    | finished => simp [run, hnext]
    | panic msg => simp [run, hnext]
    | tok v =>
      obtain ⟨hne, hlt, hsrceq, hadv, hbufinv1⟩ := next_tok_basic t hbufinv v t1 hnext
      have ihh := ih t1 hbufinv1
      have hvpos : 0 < utf8Len v.value := utf8Len_pos hne
      rw [hsrceq] at ihh
      simp only [run, hnext, List.length_cons]
      omega

/-- C10: a call to `next` that returns a token has nonempty token text
and strictly advances the byte cursor (given the invariant that buffered
tokens have nonempty text, which holds in every reachable state);
consequently a full iteration from a fresh tokenizer yields at most as
many tokens as the source has bytes. -/
theorem C10_production_strictly_advances :
    (∀ (t : Tokenizer) (v : Token) (t' : Tokenizer),
      (∀ b ∈ t.token_buffer, ¬ b.value = []) →
      next t = (NextResult.tok v, t') →
      ¬ v.value = [] ∧ t.position < t'.position) ∧
    (∀ (source : List Char) (fuel : Nat),
      (run (Tokenizer.new source) fuel).tokens.length ≤ utf8Len source) := by
  constructor
  · intro t v t' hbufinv h
    obtain ⟨hne, _, _, hadv, _⟩ := next_tok_basic t hbufinv v t' h
    refine ⟨hne, ?_⟩
    have := utf8Len_pos hne
    omega
  · intro source fuel
    have h := run_length_le fuel (Tokenizer.new source)
      (by intro b hb; simp [Tokenizer.new] at hb)
    simpa [Tokenizer.new] using h

/-- C10 witness: the theorem applied to the fresh tokenizer on `"&"`. -/
theorem C10_witness :
    ¬ (Token.mk TokenType.Ampersand ['&']).value = [] ∧
      (Tokenizer.new ['&']).position <
        (Tokenizer.mk ['&'] 1 0 (some TokenType.Ampersand) [] []).position :=
  C10_production_strictly_advances.1 (Tokenizer.new ['&'])
    ⟨TokenType.Ampersand, ['&']⟩ ⟨['&'], 1, 0, some TokenType.Ampersand, [], []⟩
    (by simp [Tokenizer.new]) (by decide)

/-- Over a completed iteration from a cursor splitting the source as
`consumed ++ rem` (with `rem` NFKC-invariant and the buffer empty), `rem`
is exactly the in-order interleaving of the skipped whitespace runs with
the produced token texts. -/
theorem run_roundtrip : ∀ (fuel : Nat) (t : Tokenizer) (consumed rem : List Char),
    t.source = consumed ++ rem → t.position = utf8Len consumed → t.token_buffer = [] →
    (∀ x ∈ rem, nfkcChar x = [x]) →
    (run t fuel).outcome = RunOutcome.completed →
    ∃ ws : List (List Char),
      ws.length = (run t fuel).tokens.length ∧
      (∀ w ∈ ws, ∀ x ∈ w, is_whitespace x = true) ∧
      rem = (List.zipWith (fun w v => w ++ v) ws
        ((run t fuel).tokens.map Token.value)).flatten := by
  intro fuel
  induction fuel with
  | zero => intro t consumed rem _ _ _ _ hout; simp [run] at hout
  | succ n ih =>
    intro t consumed rem hsrc hpos hbuf hinv hout
    rcases hnext : next t with ⟨res, t1⟩
    cases res with
    | finished =>
      have hle := next_finished t t1 hnext
      rw [hsrc, hpos, utf8Len_append] at hle
      have hrem : rem = [] := by
        by_contra hne
        have := utf8Len_pos hne
        omega
      subst hrem
      exact ⟨[], by simp [run, hnext], by simp, by simp [run, hnext]⟩
    | panic msg => simp [run, hnext] at hout
    | tok v =>
      obtain ⟨w, rest', hdecomp, hws, hsrceq, hbuf1, hpos1⟩ :=
        next_tok_decomp t consumed rem hsrc hpos hbuf hinv v t1 hnext
      have hinv1 : ∀ x ∈ rest', nfkcChar x = [x] := by
        intro x hx
        apply hinv
        rw [hdecomp]
        simp [hx]
      have hsrc1 : t1.source = (consumed ++ w ++ v.value) ++ rest' := by
        rw [hsrceq, hsrc, hdecomp]
        simp [List.append_assoc]
      have hout1 : (run t1 n).outcome = RunOutcome.completed := by
        simpa only [run, hnext] using hout
      obtain ⟨ws1, hlen1, hws1, heq1⟩ :=
        ih t1 (consumed ++ w ++ v.value) rest' hsrc1 hpos1 hbuf1 hinv1 hout1
      refine ⟨w :: ws1, ?_, ?_, ?_⟩
      · simp [run, hnext, hlen1]
      · intro w' hw'
        rcases List.mem_cons.mp hw' with hcase | hcase
        · subst hcase; exact hws
        · exact hws1 w' hcase
      · simp only [run, hnext, List.map_cons, List.zipWith_cons_cons, List.flatten_cons]
        rw [hdecomp, ← heq1]
        simp [List.append_assoc]

/-- C3 amended: for every input whose tokenization succeeds and all of
whose characters are NFKC-invariant, the source is the in-order
interleaving of the skipped intertoken whitespace runs with the token
texts — concatenating all token texts reproduces the source with the
skipped whitespace deleted. -/
theorem C3_roundtrip_up_to_whitespace (source : List Char)
    (hinv : ∀ x ∈ source, nfkcChar x = [x])
    (h : (tokenize source).outcome = RunOutcome.completed) :
    ∃ ws : List (List Char),
      ws.length = (tokenize source).tokens.length ∧
      (∀ w ∈ ws, ∀ x ∈ w, is_whitespace x = true) ∧
      source = (List.zipWith (fun w v => w ++ v) ws
        ((tokenize source).tokens.map Token.value)).flatten :=
  run_roundtrip (utf8Len source + 1) (Tokenizer.new source) [] source rfl rfl rfl hinv h

/-- C3 witness: the amended round-trip at the concrete input `"a b"`. -/
theorem C3_witness :
    ∃ ws : List (List Char),
      ws.length = (tokenize "a b".data).tokens.length ∧
      (∀ w ∈ ws, ∀ x ∈ w, is_whitespace x = true) ∧
      "a b".data = (List.zipWith (fun w v => w ++ v) ws
        ((tokenize "a b".data).tokens.map Token.value)).flatten :=
  C3_roundtrip_up_to_whitespace "a b".data (by decide) (by decide)

end RustPy

